import Mathlib

/-!
Shallow embedding of the GOrgAnalyzer repository (Go).

The embedding models the analysis pipeline of `analyze` (`shouldIgnorePath`,
`analyzeLanguages`, `analyzeCommitsByAuthor`, `processGitRepo`) and the chart
renderer `generateProgressBarSVG` of `main.go`.

Modelling conventions:
  - Go strings are Lean `String`s; character-level scanning works on `String.data`
    (`List Char`), identifying Go runes with Lean `Char`s (the inputs of interest
    are ASCII, where byte-wise and rune-wise scanning of Go agree).
  - Go maps `map[string]int` are association lists `List (String × Nat)` with the
    Go update semantics `m[k] += v` (`bump`); iteration-order of Go maps is
    abstracted by taking the materialized entry list as input where it matters.
  - File sizes (`stat.Size()`) are `Nat`: the size of a regular file is
    non-negative, and the spec treats byte counts as mathematical integers
    (machine-word overflow is out of scope).
  - Filesystem and subprocess effects are inputs: the `.gitignore` content is an
    `Option (List String)` of lines (`none` = the file does not exist), the
    directory walk is the list of callback invocations (`List WalkEntry`, with
    every walk failure delivered as an error event, as `filepath.Walk` funnels
    all errors through the callback — see `filepathWalk`), and the `git log`
    invocation is an `Except String String` (its stdout on success).
    `analyzeLanguages` also keeps the source's trailing error check as an
    `Except`-shaped input; its `.error` case is proven unreachable in a run
    because the callback returns nil on every path.
  - Floating-point chart arithmetic is modelled over `ℚ` (exact real arithmetic,
    the idealization the spec's "within floating-point tolerance" refers to).
  - `filepath.Match` of Go's standard library (used by `shouldIgnorePath`) is
    translated function-by-function (`scanChunk`, `matchChunk`, `getEsc`);
    the loops that do not structurally recurse carry a fuel argument that is
    initialized to more than the scanned list's length, which the Go loops never
    exceed because every iteration consumes at least one pattern character.
-/

namespace GOrg

/-- Decidable equality of `Except` results, so that concrete runs of the
embedded functions can be checked by `decide`. -/
instance instDecEqExcept {ε α : Type} [DecidableEq ε] [DecidableEq α] :
    DecidableEq (Except ε α) := fun a b =>
  match a, b with
  | .error e, .error f =>
    if h : e = f then .isTrue (by rw [h])
    else .isFalse (by intro hh; cases hh; exact h rfl)
  | .error _, .ok _ => .isFalse (by intro hh; cases hh)
  | .ok _, .error _ => .isFalse (by intro hh; cases hh)
  | .ok x, .ok y =>
    if h : x = y then .isTrue (by rw [h])
    else .isFalse (by intro hh; cases hh; exact h rfl)

/-! ## Association-list model of Go's `map[string]int` -/

/-- Lookup with Go's zero-value default: `m[k]` on a `map[string]int`. -/
def lookupCount : List (String × Nat) → String → Nat
  | [], _ => 0
  | p :: rest, k => if p.1 = k then p.2 else lookupCount rest k

/-- Key membership in the association list. -/
def hasKey : List (String × Nat) → String → Bool
  | [], _ => false
  | p :: rest, k => p.1 = k || hasKey rest k

/-- Go's `m[k] += v`: update the entry in place, or insert `(k, v)` if absent. -/
def bump (m : List (String × Nat)) (k : String) (v : Nat) : List (String × Nat) :=
  if hasKey m k then m.map (fun p => if p.1 = k then (p.1, p.2 + v) else p)
  else m ++ [(k, v)]

/-- Sum of all values of the tally. -/
def valuesSum (m : List (String × Nat)) : Nat :=
  (m.map (fun p => p.2)).sum

/-- The keys of the association list are pairwise distinct (true for every list
built from `[]` by `bump`, mirroring a Go map). -/
abbrev keysNodup (m : List (String × Nat)) : Prop :=
  (m.map (fun p => p.1)).Nodup

/-! ## String helpers (Go `strings` package, ASCII fragment) -/

/-- Go `unicode.IsSpace` on the ASCII range (the only characters relevant to
`strings.TrimSpace` on `.gitignore` lines in this code base). -/
def isSpaceChar (c : Char) : Bool :=
  c = ' ' || c = '\t' || c = '\n' || c = '\x0b' || c = '\x0c' || c = '\r'

/-- Go `strings.TrimSpace` (ASCII fragment). -/
def trimSpace (s : List Char) : List Char :=
  ((s.dropWhile isSpaceChar).reverse.dropWhile isSpaceChar).reverse

/-- Go `strings.Split(s, "\n")`. -/
def splitNL : List Char → List (List Char)
  | [] => [[]]
  | c :: rest =>
    let r := splitNL rest
    if c = '\n' then [] :: r
    else
      match r with
      | h :: t => (c :: h) :: t
      | [] => [[c]]

/-- Go `strings.HasPrefix(s, "#")`. -/
def startsWithHash (s : String) : Bool :=
  match s.data with
  | '#' :: _ => true
  | _ => false

/-! ## Go `path/filepath.Match` -/

/-- The leading-`*` stripping of `scanChunk`: returns whether at least one `*`
was consumed together with the remaining pattern. -/
def stripStars : List Char → Bool × List Char
  | [] => (false, [])
  | c :: rest =>
    if c = '*' then (true, (stripStars rest).2)
    else (false, c :: rest)

/-- The scanning loop of `scanChunk`: splits off the non-star fragment, keeping
track of character classes (`*` inside `[...]` is literal) and skipping the
character after a backslash escape. -/
def chunkScan : Bool → List Char → List Char × List Char
  | _, [] => ([], [])
  | inrange, c :: rest =>
    if c = '*' then
      if inrange then
        let cr := chunkScan inrange rest
        (c :: cr.1, cr.2)
      else ([], c :: rest)
    else if c = '\\' then
      match rest with
      | [] => ([c], [])
      | d :: rest2 =>
        let cr := chunkScan inrange rest2
        (c :: d :: cr.1, cr.2)
    else
      let inr := if c = '[' then true else if c = ']' then false else inrange
      let cr := chunkScan inr rest
      (c :: cr.1, cr.2)

/-- Go `scanChunk`: `(star, chunk, rest)`. -/
def scanChunk (pattern : List Char) : Bool × List Char × List Char :=
  let sp := stripStars pattern
  let cr := chunkScan false sp.2
  (sp.1, cr.1, cr.2)

/-- Go `getEsc`: one (possibly escaped) character of a character class, with
`ErrBadPattern` on a malformed class. -/
def getEsc : List Char → Except String (Char × List Char)
  | [] => .error "syntax error in pattern"
  | c :: rest =>
    if c = '-' then .error "syntax error in pattern"
    else if c = ']' then .error "syntax error in pattern"
    else if c = '\\' then
      match rest with
      | [] => .error "syntax error in pattern"
      | d :: rest2 =>
        if rest2.isEmpty then .error "syntax error in pattern" else .ok (d, rest2)
    else if rest.isEmpty then .error "syntax error in pattern" else .ok (c, rest)

/-- The range-parsing loop of `matchChunk`'s `[` case: parses `lo-hi` ranges
until the closing `]`, accumulating whether `r` fell into some range. The fuel
dominates the chunk length (`getEsc` consumes at least one character). -/
def matchRanges : Nat → Char → Bool → Nat → List Char → Except String (List Char × Bool)
  | 0, _, _, _, _ => .error "out of fuel"
  | fuel + 1, r, matched, nrange, chunk =>
    match chunk with
    | ']' :: rest =>
      if 0 < nrange then .ok (rest, matched)
      else .error "syntax error in pattern"
    | _ =>
      match getEsc chunk with
      | .error e => .error e
      | .ok (lo, c1) =>
        match c1 with
        | '-' :: c1' =>
          match getEsc c1' with
          | .error e => .error e
          | .ok (hi, c2) =>
            matchRanges fuel r (matched || decide (lo ≤ r ∧ r ≤ hi)) (nrange + 1) c2
        | _ =>
          matchRanges fuel r (matched || decide (lo ≤ r ∧ r ≤ lo)) (nrange + 1) c1

/-- Go `matchChunk`: matches a star-free chunk at the start of `s`.
`.ok (some t)` is Go's `(t, true, nil)`, `.ok none` is `("", false, nil)`,
`.error` is `ErrBadPattern`. After a mismatch the chunk is still consumed to
completion so that malformed patterns are reported (the `failed` flag). -/
def matchChunk : Nat → List Char → List Char → Bool → Except String (Option (List Char))
  | 0, _, _, _ => .error "out of fuel"
  | _ + 1, [], s, failed => if failed then .ok none else .ok (some s)
  | fuel + 1, c :: rest, s, failed =>
    let f1 := failed || s.isEmpty
    if c = '[' then
      let r := s.headD 'A'
      let s2 := if f1 then s else s.tail
      match rest with
      | '^' :: rest2 =>
        match matchRanges (rest2.length + 1) r false 0 rest2 with
        | .error e => .error e
        | .ok (rest3, m) => matchChunk fuel rest3 s2 (f1 || m)
      | _ =>
        match matchRanges (rest.length + 1) r false 0 rest with
        | .error e => .error e
        | .ok (rest3, m) => matchChunk fuel rest3 s2 (f1 || !m)
    else if c = '?' then
      if f1 then matchChunk fuel rest s true
      else matchChunk fuel rest s.tail (decide (s.headD 'A' = '/'))
    else if c = '\\' then
      match rest with
      | [] => .error "syntax error in pattern"
      | d :: rest2 =>
        if f1 then matchChunk fuel rest2 s true
        else matchChunk fuel rest2 s.tail (decide (s.headD 'A' ≠ d))
    else
      if f1 then matchChunk fuel rest s true
      else matchChunk fuel rest s.tail (decide (s.headD 'A' ≠ c))

/-- `matchChunk` with its sufficient fuel (each iteration consumes at least one
chunk character). -/
def matchChunkRun (chunk s : List Char) : Except String (Option (List Char)) :=
  matchChunk (chunk.length + 1) chunk s false

/-- The inner star loop of `Match`: try to match the chunk after skipping one
more non-separator character of `name`; a `*` never skips over `/`. -/
def starLoop (chunk rest : List Char) : List Char → Except String (Option (List Char))
  | [] => .ok none
  | c :: tailName =>
    if c = '/' then .ok none
    else
      match matchChunkRun chunk tailName with
      | .error e => .error e
      | .ok (some t) =>
        if rest.isEmpty && !t.isEmpty then starLoop chunk rest tailName
        else .ok (some t)
      | .ok none => starLoop chunk rest tailName

/-- The final well-formedness scan of `Match`: before returning `false`, check
that the remainder of the pattern could match the empty string without a
pattern error. -/
def chunksWellFormed : Nat → List Char → Except String Unit
  | 0, _ => .error "out of fuel"
  | _ + 1, [] => .ok ()
  | fuel + 1, c :: ps =>
    let sc := scanChunk (c :: ps)
    match matchChunkRun sc.2.1 [] with
    | .error e => .error e
    | .ok _ => chunksWellFormed fuel sc.2.2

/-- The shared fall-through of `Match` after a chunk failed to match in place:
on a starred chunk, search forward within the current path segment; otherwise
(or when the search is exhausted) validate the remaining pattern and report
no match. `.ok (some t)` means the outer loop continues with name `t`. -/
def starFallback (star : Bool) (chunk rest name : List Char) :
    Except String (Option (List Char)) :=
  if star then
    match starLoop chunk rest name with
    | .error e => .error e
    | .ok (some t2) => .ok (some t2)
    | .ok none =>
      match chunksWellFormed (rest.length + 1) rest with
      | .error e => .error e
      | .ok _ => .ok none
  else
    match chunksWellFormed (rest.length + 1) rest with
    | .error e => .error e
    | .ok _ => .ok none

/-- The outer `Pattern` loop of Go `filepath.Match`. The fuel dominates the
pattern length (`scanChunk` consumes at least one character per iteration). -/
def goMatchAux : Nat → List Char → List Char → Except String Bool
  | 0, _, _ => .error "out of fuel"
  | _ + 1, [], name => .ok name.isEmpty
  | fuel + 1, c :: ps, name =>
    let sc := scanChunk (c :: ps)
    let star := sc.1
    let chunk := sc.2.1
    let rest := sc.2.2
    if star && chunk.isEmpty then .ok (!(name.contains '/'))
    else
      match matchChunkRun chunk name with
      | .error e => .error e
      | .ok (some t) =>
        if t.isEmpty || !rest.isEmpty then goMatchAux fuel rest t
        else
          match starFallback star chunk rest name with
          | .error e => .error e
          | .ok (some t2) => goMatchAux fuel rest t2
          | .ok none => .ok false
      | .ok none =>
        match starFallback star chunk rest name with
        | .error e => .error e
        | .ok (some t2) => goMatchAux fuel rest t2
        | .ok none => .ok false

/-- Go `filepath.Match(pattern, name)`. -/
def goMatch (pattern name : String) : Except String Bool :=
  goMatchAux (pattern.data.length + 1) pattern.data name.data

/-! ## `shouldIgnorePath` -/

/-- The pattern list read from the `.gitignore` lines: each line is trimmed,
empty lines and `#` comments are skipped. -/
def gitignorePatterns (lines : List String) : List String :=
  lines.foldr
    (fun line acc =>
      let t : String := ⟨trimSpace line.data⟩
      if t = "" then acc
      else if startsWithHash t then acc
      else t :: acc)
    []

/-- The matching loop of `shouldIgnorePath`: the first matching pattern ignores
the path; a match error is wrapped and propagated. -/
def firstMatch : List String → String → Except String Bool
  | [], _ => .ok false
  | p :: ps, rel =>
    match goMatch p rel with
    | .error e => .error ("matching pattern: " ++ e)
    | .ok true => .ok true
    | .ok false => firstMatch ps rel

/-- Go `shouldIgnorePath(repoPath, path)`. The `.gitignore` content is the
input `ignoreFile` (`none`: the file does not exist, which is not an error);
`relPath` is the path of the candidate relative to the repository root. -/
def shouldIgnorePath (ignoreFile : Option (List String)) (relPath : String) :
    Except String Bool :=
  match ignoreFile with
  | none => .ok false
  | some lines => firstMatch (gitignorePatterns lines) relPath

/-! ## `analyzeLanguages` (the Repository Scanner) -/

/-- Go `filepath.Ext` scanned backwards over the reversed name: everything from
the final dot of the last path element, empty if that element has no dot. The
accumulator rebuilds, in original order, the characters already passed. -/
def extFromRev (acc : List Char) : List Char → List Char
  | [] => []
  | c :: rest =>
    if c = '/' then []
    else if c = '.' then c :: acc
    else extFromRev (c :: acc) rest

/-- `strings.ToLower(filepath.Ext(info.Name()))` for a file at `relPath`
(the extension of the last path element, lowercased). -/
def lowerExt (relPath : String) : String :=
  ⟨(extFromRev [] relPath.data.reverse).map Char.toLower⟩

/-- The static `extToLang` table. -/
def extToLang : String → Option String
  | ".go" => some "Go"
  | ".ts" => some "TypeScript"
  | ".cs" => some "C#"
  | ".py" => some "Python"
  | ".java" => some "Java"
  | ".js" => some "JavaScript"
  | ".cpp" => some "C++"
  | ".c" => some "C"
  | ".rb" => some "Ruby"
  | ".php" => some "PHP"
  | ".html" => some "HTML"
  | ".css" => some "CSS"
  | ".rs" => some "Rust"
  | ".swift" => some "Swift"
  | ".kt" => some "Kotlin"
  | ".sh" => some "Shell"
  | ".xml" => some "XML"
  | ".yaml" => some "YAML"
  | ".yml" => some "YAML"
  | _ => none

/-- One callback invocation of the `filepath.Walk` of `analyzeLanguages`:
either the walk reported an error for the entry, or the entry is a directory,
or a regular file at `relPath` (relative to the repository root) of `size`
bytes, whose `os.Open` and `file.Stat` calls succeed iff `openOk` / `statOk`. -/
inductive WalkEntry where
  | errPath (path : String)
  | dir (path : String)
  | file (relPath : String) (size : Nat) (openOk : Bool) (statOk : Bool)
deriving DecidableEq

/-- The accumulator of `analyzeLanguages`. -/
structure ScanState where
  langByteCounts : List (String × Nat)
  totalBytes : Nat
deriving DecidableEq

/-- The body of the walk callback of `analyzeLanguages`: entry errors,
directories, ignored paths, ignore-matcher errors, unrecognized extensions and
unreadable files are skipped (the walk continues); otherwise the file's size is
added to its language bucket and to the running total. -/
def scanStep (gitignore : Option (List String)) (st : ScanState) (e : WalkEntry) :
    ScanState :=
  match e with
  | .errPath _ => st
  | .dir _ => st
  | .file relPath size openOk statOk =>
    match shouldIgnorePath gitignore relPath with
    | .error _ => st
    | .ok true => st
    | .ok false =>
      match extToLang (lowerExt relPath) with
      | none => st
      | some lang =>
        if openOk then
          if statOk then
            { langByteCounts := bump st.langByteCounts lang size,
              totalBytes := st.totalBytes + size }
          else st
        else st

/-- The fold of the walk callback over the walked entries, from the empty
tally (the successful path of `analyzeLanguages`). -/
def scanRepo (gitignore : Option (List String)) (entries : List WalkEntry) :
    ScanState :=
  entries.foldl (scanStep gitignore) ⟨[], 0⟩

/-- Go `analyzeLanguages(repoPath)` as a function of the `filepath.Walk`
return value: a non-nil walk error would be wrapped (`walking file path: %w`,
mirroring the trailing error check of the source), a nil error yields the
tally of the walked entries. Which of the two inputs the program can actually
produce is settled against `filepathWalk` below: the callback returns nil on
every path, so only the `.ok` case is reachable in a run. -/
def analyzeLanguages (gitignore : Option (List String))
    (walk : Except String (List WalkEntry)) : Except String ScanState :=
  match walk with
  | .error e => .error ("walking file path: " ++ e)
  | .ok entries => .ok (scanRepo gitignore entries)

/-- The walk callback of `analyzeLanguages` as Go sees it: the closure mutates
the accumulator and returns the callback's `error`, which in the source is
`nil` on every branch — entry errors, directories, matcher errors, ignored
paths, unrecognized extensions, open/stat failures and counted files alike. -/
def scanWalkFn (gitignore : Option (List String)) (st : ScanState) (e : WalkEntry) :
    ScanState × Option String :=
  (scanStep gitignore st e, none)

/-- Go `filepath.Walk`: every failure — the root lstat failing, a directory
read failing, an entry lstat failing — is delivered to the callback as one of
the visited events (`WalkEntry.errPath`), and Walk returns the callback's
first non-nil error, or nil when the callback never reports one. -/
def filepathWalk (fn : ScanState → WalkEntry → ScanState × Option String) :
    ScanState → List WalkEntry → ScanState × Option String
  | st, [] => (st, none)
  | st, e :: rest =>
    match fn st e with
    | (st2, none) => filepathWalk fn st2 rest
    | (st2, some msg) => (st2, some msg)

/-- `analyzeLanguages` composed with the walk it actually performs: the walk's
failure events are part of `entries`, and the trailing error check wraps
whatever error `filepath.Walk` returned. -/
def analyzeLanguagesRun (gitignore : Option (List String))
    (entries : List WalkEntry) : Except String ScanState :=
  match filepathWalk (scanWalkFn gitignore) ⟨[], 0⟩ entries with
  | (_, some msg) => .error ("walking file path: " ++ msg)
  | (st, none) => .ok st

/-! ## `analyzeCommitsByAuthor` (the Author Counter) -/

/-- The counting loop of `analyzeCommitsByAuthor` over the `git log` output:
split on newlines, skip empty lines, increment the author of each line. -/
def countAuthors (output : String) : List (String × Nat) :=
  ((splitNL output.data).map (fun l => (⟨l⟩ : String))).foldl
    (fun counts author => if author ≠ "" then bump counts author 1 else counts) []

/-- Go `analyzeCommitsByAuthor(repoPath)`: the `git log --pretty=%an`
invocation either fails (wrapped error) or yields its stdout. -/
def analyzeCommitsByAuthor (gitLogOutput : Except String String) :
    Except String (List (String × Nat)) :=
  match gitLogOutput with
  | .error e => .error ("running git log: " ++ e)
  | .ok out => .ok (countAuthors out)

/-! ## `processGitRepo` (the Repository Analyzer) -/

/-- The cumulative accumulators threaded through `processGitRepo`
(`totalLangCounts` and `*totalFilesAnalyzed`, which holds bytes). -/
structure CumState where
  totalLangCounts : List (String × Nat)
  totalFilesAnalyzed : Nat
deriving DecidableEq

/-- The cumulative merge of `processGitRepo`:
`for lang, count := range repoLangCounts { totalLangCounts[lang] += count }`. -/
def mergeCounts (cum repo : List (String × Nat)) : List (String × Nat) :=
  repo.foldl (fun acc p => bump acc p.1 p.2) cum

/-- Go `processGitRepo(repoPath, totalLangCounts, totalFilesAnalyzed)`:
a failing Author Counter or Scanner is logged and the repository contributes
nothing; otherwise its tally and total are merged into the cumulative state.
The second component is the returned `error`, which is `nil` on every path. -/
def processGitRepo (gitLogOutput : Except String String)
    (gitignore : Option (List String)) (walk : Except String (List WalkEntry))
    (st : CumState) : CumState × Option String :=
  match analyzeCommitsByAuthor gitLogOutput with
  | .error _ => (st, none)
  | .ok _commitCounts =>
    match analyzeLanguages gitignore walk with
    | .error _ => (st, none)
    | .ok scan =>
      ({ totalLangCounts := mergeCounts st.totalLangCounts scan.langByteCounts,
         totalFilesAnalyzed := st.totalFilesAnalyzed + scan.totalBytes }, none)

/-- The per-repository loop of `main` over the analyzed repositories, each
given by its `git log` output, its `.gitignore` content and its walk. -/
def runRepos (repos : List (String × Option (List String) × List WalkEntry)) :
    CumState :=
  repos.foldl (fun st r => (processGitRepo (.ok r.1) r.2.1 (.ok r.2.2) st).1) ⟨[], 0⟩

/-! ## `generateProgressBarSVG` (the Chart Renderer) -/

/-- One `<rect>` segment of the rendered bar: its language, left edge and
width (colors are irrelevant to the layout claims). -/
structure Segment where
  lang : String
  x : ℚ
  width : ℚ
deriving DecidableEq, Repr

/-- Insertion into a by-byte-count descending list, as produced by
`sort.Slice(sortedLangs, func(i, j) { return byteCount i > byteCount j })`. -/
def insertDesc (p : String × Nat) : List (String × Nat) → List (String × Nat)
  | [] => [p]
  | q :: rest => if q.2 < p.2 then p :: q :: rest else q :: insertDesc p rest

/-- Sorting the materialized language list by descending byte count. -/
def sortLangs : List (String × Nat) → List (String × Nat)
  | [] => []
  | p :: rest => insertDesc p (sortLangs rest)

/-- The segment-emitting loop: each language gets width
`totalWidth * (byteCount / totalBytes)` with `totalWidth = 500`, laid out from
`currentX`, which starts at the margin `x = 50`. -/
def segmentsFrom (totalBytes : Nat) : ℚ → List (String × Nat) → List Segment
  | _, [] => []
  | currentX, p :: rest =>
    { lang := p.1, x := currentX,
      width := 500 * ((p.2 : ℚ) / (totalBytes : ℚ)) } ::
      segmentsFrom totalBytes (currentX + 500 * ((p.2 : ℚ) / (totalBytes : ℚ))) rest

/-- Go `generateProgressBarSVG(langByteCounts, totalBytes, outputPath)`, as the
list of emitted segments (the SVG header/footer and the file write carry no
layout content). -/
def generateProgressBarSVG (langByteCounts : List (String × Nat))
    (totalBytes : Nat) : List Segment :=
  segmentsFrom totalBytes 50 (sortLangs langByteCounts)

/-! ## Lemmas about the association-list tally -/

theorem lookupCount_eq_zero_of_not_hasKey (m : List (String × Nat)) (k : String)
    (h : hasKey m k = false) : lookupCount m k = 0 := by
  induction m with
  | nil => rfl
  | cons p rest ih =>
    simp only [hasKey, Bool.or_eq_false_iff, decide_eq_false_iff_not] at h
    simp [lookupCount, h.1, ih h.2]

theorem lookupCount_map_update (m : List (String × Nat)) (k : String) (v : Nat) :
    lookupCount (m.map (fun p => if p.1 = k then (p.1, p.2 + v) else p)) k
      = lookupCount m k + (if hasKey m k then v else 0) := by
  induction m with
  | nil => simp [lookupCount, hasKey]
  | cons p rest ih =>
    by_cases hp : p.1 = k
    · simp [lookupCount, hasKey, hp]
    · simp [lookupCount, hasKey, hp, ih]

theorem lookupCount_map_update_other (m : List (String × Nat)) (k : String) (v : Nat)
    (k' : String) (h : k' ≠ k) :
    lookupCount (m.map (fun p => if p.1 = k then (p.1, p.2 + v) else p)) k'
      = lookupCount m k' := by
  induction m with
  | nil => rfl
  | cons p rest ih =>
    by_cases hp : p.1 = k
    · have hne : ¬ p.1 = k' := by rw [hp]; exact fun hh => h hh.symm
      simp [lookupCount, hp, hne, ih, Ne.symm h]
    · by_cases hp' : p.1 = k'
      · simp [lookupCount, hp, hp', h]
      · simp [lookupCount, hp, hp', ih]

theorem lookupCount_append_single_self (m : List (String × Nat)) (k : String) (v : Nat)
    (hk : hasKey m k = false) :
    lookupCount (m ++ [(k, v)]) k = lookupCount m k + v := by
  induction m with
  | nil => simp [lookupCount]
  | cons p rest ih =>
    simp only [hasKey, Bool.or_eq_false_iff, decide_eq_false_iff_not] at hk
    simp [lookupCount, hk.1, ih (by simpa using hk.2)]

theorem lookupCount_append_single_other (m : List (String × Nat)) (k : String) (v : Nat)
    (k' : String) (h : k' ≠ k) :
    lookupCount (m ++ [(k, v)]) k' = lookupCount m k' := by
  induction m with
  | nil => simp [lookupCount, Ne.symm h]
  | cons p rest ih =>
    by_cases hp : p.1 = k'
    · simp [lookupCount, hp]
    · simp [lookupCount, hp, ih]

theorem lookupCount_bump_self (m : List (String × Nat)) (k : String) (v : Nat) :
    lookupCount (bump m k v) k = lookupCount m k + v := by
  unfold bump
  cases hk : hasKey m k with
  | true =>
    simp only [if_true]
    rw [lookupCount_map_update, hk]
    simp
  | false =>
    simp only [Bool.false_eq_true, if_false]
    exact lookupCount_append_single_self m k v hk

theorem lookupCount_bump_other (m : List (String × Nat)) (k : String) (v : Nat)
    (k' : String) (h : k' ≠ k) :
    lookupCount (bump m k v) k' = lookupCount m k' := by
  unfold bump
  cases hk : hasKey m k with
  | true =>
    simp only [if_true]
    exact lookupCount_map_update_other m k v k' h
  | false =>
    simp only [Bool.false_eq_true, if_false]
    exact lookupCount_append_single_other m k v k' h

theorem hasKey_iff_mem (m : List (String × Nat)) (k : String) :
    hasKey m k = true ↔ k ∈ m.map (fun p => p.1) := by
  induction m with
  | nil => simp [hasKey]
  | cons p rest ih =>
    simp only [hasKey, Bool.or_eq_true, decide_eq_true_eq, List.map_cons, List.mem_cons, ih]
    constructor
    · rintro (h | h)
      · exact Or.inl h.symm
      · exact Or.inr h
    · rintro (h | h)
      · exact Or.inl h.symm
      · exact Or.inr h

theorem map_update_eq_of_not_hasKey (m : List (String × Nat)) (k : String) (v : Nat)
    (h : hasKey m k = false) :
    m.map (fun p => if p.1 = k then (p.1, p.2 + v) else p) = m := by
  induction m with
  | nil => rfl
  | cons p rest ih =>
    simp only [hasKey, Bool.or_eq_false_iff, decide_eq_false_iff_not] at h
    simp [h.1, ih h.2]

theorem valuesSum_map_update (m : List (String × Nat)) (k : String) (v : Nat)
    (h : keysNodup m) (hk : hasKey m k = true) :
    valuesSum (m.map (fun p => if p.1 = k then (p.1, p.2 + v) else p))
      = valuesSum m + v := by
  induction m with
  | nil => simp [hasKey] at hk
  | cons p rest ih =>
    simp only [keysNodup, List.map_cons, List.nodup_cons] at h
    by_cases hp : p.1 = k
    · have hrest : hasKey rest k = false := by
        cases hr : hasKey rest k with
        | false => rfl
        | true => exact absurd ((hasKey_iff_mem rest k).mp hr) (hp ▸ h.1)
      rw [List.map_cons, if_pos hp, map_update_eq_of_not_hasKey rest k v hrest]
      simp only [valuesSum, List.map_cons, List.sum_cons]
      omega
    · have hrest : hasKey rest k = true := by
        simpa [hasKey, hp] using hk
      have hrec := ih h.2 hrest
      rw [List.map_cons, if_neg hp]
      simp only [valuesSum, List.map_cons, List.sum_cons] at hrec ⊢
      omega

theorem valuesSum_bump (m : List (String × Nat)) (k : String) (v : Nat)
    (h : keysNodup m) : valuesSum (bump m k v) = valuesSum m + v := by
  unfold bump
  cases hk : hasKey m k with
  | true =>
    simp only [if_true]
    exact valuesSum_map_update m k v h hk
  | false =>
    simp only [Bool.false_eq_true, if_false, valuesSum, List.map_append, List.sum_append]
    simp

theorem keysNodup_bump (m : List (String × Nat)) (k : String) (v : Nat)
    (h : keysNodup m) : keysNodup (bump m k v) := by
  unfold bump
  cases hk : hasKey m k with
  | true =>
    simp only [if_true]
    have : (m.map (fun p => if p.1 = k then (p.1, p.2 + v) else p)).map (fun p => p.1)
        = m.map (fun p => p.1) := by
      rw [List.map_map]
      apply List.map_congr_left
      intro p _
      by_cases hp : p.1 = k <;> simp [hp]
    simpa [keysNodup, this] using h
  | false =>
    simp only [Bool.false_eq_true, if_false, keysNodup, List.map_append, List.map_cons]
    rw [List.nodup_append]
    refine ⟨h, List.nodup_singleton _, ?_⟩
    intro a ha
    simp only [List.map_nil, List.mem_singleton]
    intro hb
    have : hasKey m k = true := (hasKey_iff_mem m k).mpr (by simpa [hb] using ha)
    simp [this] at hk

theorem keysNodup_nil : keysNodup [] := by
  simp [keysNodup]

theorem lookupCount_mergeCounts (cum repo : List (String × Nat)) (k : String)
    (h : keysNodup repo) :
    lookupCount (mergeCounts cum repo) k = lookupCount cum k + lookupCount repo k := by
  induction repo generalizing cum with
  | nil => simp [mergeCounts, lookupCount]
  | cons p rest ih =>
    simp only [keysNodup, List.map_cons, List.nodup_cons] at h
    have step : mergeCounts cum (p :: rest) = mergeCounts (bump cum p.1 p.2) rest := rfl
    rw [step, ih _ h.2]
    by_cases hp : p.1 = k
    · have hrest : hasKey rest k = false := by
        cases hr : hasKey rest k with
        | false => rfl
        | true => exact absurd ((hasKey_iff_mem rest k).mp hr) (hp ▸ h.1)
      rw [hp, lookupCount_bump_self]
      simp [lookupCount, hp, lookupCount_eq_zero_of_not_hasKey rest k hrest]
    · rw [lookupCount_bump_other cum p.1 p.2 k (fun hh => hp hh.symm)]
      simp [lookupCount, hp]

theorem keysNodup_mergeCounts (cum repo : List (String × Nat))
    (h : keysNodup cum) : keysNodup (mergeCounts cum repo) := by
  induction repo generalizing cum with
  | nil => exact h
  | cons p rest ih => exact ih _ (keysNodup_bump cum p.1 p.2 h)

/-! ## Lemmas about the scanner step -/

theorem scanStep_shape (ig : Option (List String)) (st : ScanState) (e : WalkEntry) :
    scanStep ig st e = st ∨
      ∃ lang size, scanStep ig st e =
        ⟨bump st.langByteCounts lang size, st.totalBytes + size⟩ := by
  cases e with
  | errPath p => exact Or.inl rfl
  | dir p => exact Or.inl rfl
  | file rel size oOk sOk =>
    simp only [scanStep]
    repeat' split
    all_goals first
      | exact Or.inl rfl
      | exact Or.inr ⟨_, size, rfl⟩

theorem scanFold_invariant (ig : Option (List String)) (entries : List WalkEntry)
    (st : ScanState) (h1 : st.totalBytes = valuesSum st.langByteCounts)
    (h2 : keysNodup st.langByteCounts) :
    (entries.foldl (scanStep ig) st).totalBytes
        = valuesSum (entries.foldl (scanStep ig) st).langByteCounts
      ∧ keysNodup (entries.foldl (scanStep ig) st).langByteCounts := by
  induction entries generalizing st with
  | nil => exact ⟨h1, h2⟩
  | cons e rest ih =>
    rcases scanStep_shape ig st e with hshape | ⟨lang, size, hshape⟩
    · rw [List.foldl_cons, hshape]
      exact ih st h1 h2
    · rw [List.foldl_cons, hshape]
      apply ih
      · simp only [valuesSum_bump st.langByteCounts lang size h2]
        omega
      · exact keysNodup_bump st.langByteCounts lang size h2

theorem scanFold_mono (ig : Option (List String)) (entries : List WalkEntry)
    (st : ScanState) :
    st.totalBytes ≤ (entries.foldl (scanStep ig) st).totalBytes
      ∧ ∀ lang, lookupCount st.langByteCounts lang
          ≤ lookupCount (entries.foldl (scanStep ig) st).langByteCounts lang := by
  induction entries generalizing st with
  | nil => exact ⟨Nat.le_refl _, fun _ => Nat.le_refl _⟩
  | cons e rest ih =>
    rcases scanStep_shape ig st e with hshape | ⟨lang, size, hshape⟩
    · rw [List.foldl_cons, hshape]
      exact ih st
    · rw [List.foldl_cons, hshape]
      rcases ih ⟨bump st.langByteCounts lang size, st.totalBytes + size⟩ with ⟨hl, hr⟩
      refine ⟨Nat.le_trans (Nat.le_add_right _ _) hl, fun l => Nat.le_trans ?_ (hr l)⟩
      by_cases hll : l = lang
      · rw [hll]
        simp [lookupCount_bump_self]
      · rw [lookupCount_bump_other st.langByteCounts lang size l hll]

theorem scanRepo_invariant (ig : Option (List String)) (entries : List WalkEntry) :
    (scanRepo ig entries).totalBytes = valuesSum (scanRepo ig entries).langByteCounts
      ∧ keysNodup (scanRepo ig entries).langByteCounts :=
  scanFold_invariant ig entries ⟨[], 0⟩ rfl keysNodup_nil

/-! ## C1: scanner invariants -/

/-- C1: For every repository, the tally and total returned by the scanner
(`analyzeLanguages`, successful walk) satisfy: the total equals the sum of the
per-language values; every tally value is non-negative (byte counts are
naturals: file sizes are non-negative and only ever added); and both the total
and every per-language count only grow as the walk proceeds (processing more
entries never decreases them). -/
theorem spec_C1_scanner_invariants (ig : Option (List String)) (entries : List WalkEntry) :
    analyzeLanguages ig (.ok entries) = .ok (scanRepo ig entries)
    ∧ (scanRepo ig entries).totalBytes = valuesSum (scanRepo ig entries).langByteCounts
    ∧ (∀ p, p ∈ (scanRepo ig entries).langByteCounts → 0 ≤ (p.2 : Int))
    ∧ ∀ more : List WalkEntry,
        (scanRepo ig entries).totalBytes ≤ (scanRepo ig (entries ++ more)).totalBytes
        ∧ ∀ lang, lookupCount (scanRepo ig entries).langByteCounts lang
            ≤ lookupCount (scanRepo ig (entries ++ more)).langByteCounts lang := by
  refine ⟨rfl, (scanRepo_invariant ig entries).1, fun p _ => Int.natCast_nonneg p.2, ?_⟩
  intro more
  have : scanRepo ig (entries ++ more)
      = more.foldl (scanStep ig) (scanRepo ig entries) := by
    simp [scanRepo, List.foldl_append]
  rw [this]
  exact scanFold_mono ig more (scanRepo ig entries)

/-- Witness for C1 at a concrete repository. -/
theorem spec_C1_scanner_invariants_witness :
    ("Go", 100) ∈ (scanRepo none [WalkEntry.file "a.go" 100 true true]).langByteCounts
    ∧ (0 : Int) ≤ ((100 : Nat) : Int) :=
  ⟨by decide,
   (spec_C1_scanner_invariants none [WalkEntry.file "a.go" 100 true true]).2.2.1
     ("Go", 100) (by decide)⟩

/-! ## C2: the cumulative merge of `processGitRepo` -/

theorem scanStep_unrecognized (ig : Option (List String)) (st : ScanState)
    (e : WalkEntry)
    (h : ∀ rel size oOk sOk, e = WalkEntry.file rel size oOk sOk →
        extToLang (lowerExt rel) = none) :
    scanStep ig st e = st := by
  cases e with
  | errPath p => rfl
  | dir p => rfl
  | file rel size oOk sOk =>
    have hext := h rel size oOk sOk rfl
    simp only [scanStep]
    split
    · rfl
    · rfl
    · rw [hext]

theorem runRepos_from (repos : List (String × Option (List String) × List WalkEntry))
    (st : CumState) (h : keysNodup st.totalLangCounts) :
    (∀ k, lookupCount ((repos.foldl
          (fun s r => (processGitRepo (.ok r.1) r.2.1 (.ok r.2.2) s).1) st).totalLangCounts) k
        = lookupCount st.totalLangCounts k
          + (repos.map (fun r => lookupCount (scanRepo r.2.1 r.2.2).langByteCounts k)).sum)
    ∧ (repos.foldl (fun s r => (processGitRepo (.ok r.1) r.2.1 (.ok r.2.2) s).1)
          st).totalFilesAnalyzed
        = st.totalFilesAnalyzed
          + (repos.map (fun r => (scanRepo r.2.1 r.2.2).totalBytes)).sum := by
  induction repos generalizing st with
  | nil => simp
  | cons r rs ih =>
    have hstep : (processGitRepo (.ok r.1) r.2.1 (.ok r.2.2) st).1
        = ⟨mergeCounts st.totalLangCounts (scanRepo r.2.1 r.2.2).langByteCounts,
           st.totalFilesAnalyzed + (scanRepo r.2.1 r.2.2).totalBytes⟩ := rfl
    rcases ih ⟨mergeCounts st.totalLangCounts (scanRepo r.2.1 r.2.2).langByteCounts,
        st.totalFilesAnalyzed + (scanRepo r.2.1 r.2.2).totalBytes⟩
        (keysNodup_mergeCounts _ _ h) with ⟨ihl, ihr⟩
    constructor
    · intro k
      rw [List.foldl_cons, hstep, ihl k]
      simp only [List.map_cons, List.sum_cons]
      rw [lookupCount_mergeCounts _ _ _ (scanRepo_invariant r.2.1 r.2.2).2]
      omega
    · rw [List.foldl_cons, hstep, ihr]
      simp only [List.map_cons, List.sum_cons]
      omega

/-- C2: the cumulative tally after a sequence of analyzed repositories is the
elementwise sum of the per-repository tallies, and the cumulative total is the
sum of the per-repository totals; the merge performed by `processGitRepo` is an
elementwise add that is commutative and associative (on duplicate-free
tallies, which the scanner always produces); a repository with zero recognized
files yields the empty tally and total `0`, and merging the empty tally is the
identity. -/
theorem spec_C2_cumulative_merge :
    (∀ (repos : List (String × Option (List String) × List WalkEntry)) (k : String),
      lookupCount (runRepos repos).totalLangCounts k
        = (repos.map (fun r => lookupCount (scanRepo r.2.1 r.2.2).langByteCounts k)).sum
      ∧ (runRepos repos).totalFilesAnalyzed
        = (repos.map (fun r => (scanRepo r.2.1 r.2.2).totalBytes)).sum)
    ∧ (∀ (cum t1 t2 : List (String × Nat)) (k : String),
        keysNodup t1 → keysNodup t2 →
        lookupCount (mergeCounts (mergeCounts cum t1) t2) k
          = lookupCount cum k + (lookupCount t1 k + lookupCount t2 k)
        ∧ lookupCount (mergeCounts (mergeCounts cum t1) t2) k
          = lookupCount (mergeCounts (mergeCounts cum t2) t1) k
        ∧ lookupCount (mergeCounts cum (mergeCounts t1 t2)) k
          = lookupCount (mergeCounts (mergeCounts cum t1) t2) k)
    ∧ (∀ (ig : Option (List String)) (entries : List WalkEntry),
        (∀ rel size oOk sOk, WalkEntry.file rel size oOk sOk ∈ entries →
            extToLang (lowerExt rel) = none) →
        scanRepo ig entries = ⟨[], 0⟩)
    ∧ ∀ cum : List (String × Nat), mergeCounts cum [] = cum := by
  refine ⟨?_, ?_, ?_, fun _ => rfl⟩
  · intro repos k
    rcases runRepos_from repos ⟨[], 0⟩ keysNodup_nil with ⟨hl, hr⟩
    exact ⟨by simpa [lookupCount] using hl k, by simpa using hr⟩
  · intro cum t1 t2 k h1 h2
    have m1 := lookupCount_mergeCounts (mergeCounts cum t1) t2 k h2
    have m2 := lookupCount_mergeCounts cum t1 k h1
    have m3 := lookupCount_mergeCounts (mergeCounts cum t2) t1 k h1
    have m4 := lookupCount_mergeCounts cum t2 k h2
    have m5 := lookupCount_mergeCounts cum (mergeCounts t1 t2) k
        (keysNodup_mergeCounts t1 t2 h1)
    have m6 := lookupCount_mergeCounts t1 t2 k h2
    refine ⟨by omega, by omega, by omega⟩
  · intro ig entries h
    induction entries with
    | nil => rfl
    | cons e rest ih =>
      have h0 : scanStep ig ⟨[], 0⟩ e = ⟨[], 0⟩ :=
        scanStep_unrecognized ig ⟨[], 0⟩ e (fun rel size oOk sOk he =>
          h rel size oOk sOk (by rw [← he]; exact List.mem_cons_self e rest))
      have hsplit : scanRepo ig (e :: rest) = scanRepo ig rest := by
        simp [scanRepo, List.foldl_cons, h0]
      rw [hsplit]
      exact ih (fun rel size oOk sOk hmem =>
        h rel size oOk sOk (List.mem_cons_of_mem e hmem))

/-- Witness for C2 at two concrete single-file repositories. -/
theorem spec_C2_cumulative_merge_witness :
    lookupCount (mergeCounts (mergeCounts [] [("Go", 100)]) [("Go", 7), ("Python", 50)]) "Go"
      = lookupCount [] "Go"
        + (lookupCount [("Go", 100)] "Go" + lookupCount [("Go", 7), ("Python", 50)] "Go") :=
  ((spec_C2_cumulative_merge.2.1 [] [("Go", 100)] [("Go", 7), ("Python", 50)] "Go"
    (by decide) (by decide)).1)

/-! ## C3: per-repository failures are not fatal -/

/-- C3: if the Author Counter (`git log`) or the Scanner (walk) fails for a
repository, `processGitRepo` leaves the cumulative tally and total unchanged
and returns `nil`; indeed its returned error is `nil` on every path, so a
per-repository failure is never fatal to the run. -/
theorem spec_C3_per_repo_failure_non_fatal (st : CumState)
    (gitLog : Except String String) (ig : Option (List String))
    (walk : Except String (List WalkEntry)) :
    (∀ e, gitLog = .error e → processGitRepo gitLog ig walk st = (st, none))
    ∧ (∀ e, walk = .error e → processGitRepo gitLog ig walk st = (st, none))
    ∧ (processGitRepo gitLog ig walk st).2 = none := by
  refine ⟨?_, ?_, ?_⟩
  · intro e he
    subst he
    rfl
  · intro e he
    subst he
    cases gitLog with
    | error f => rfl
    | ok out => rfl
  · cases gitLog with
    | error f => rfl
    | ok out =>
      cases walk with
      | error f => rfl
      | ok entries => rfl

/-- Witness for C3: a failing `git log` leaves a concrete cumulative state
untouched and returns `nil`. -/
theorem spec_C3_per_repo_failure_non_fatal_witness :
    processGitRepo (.error "exit status 128") none (.ok []) ⟨[("Go", 7)], 7⟩
      = (⟨[("Go", 7)], 7⟩, none) :=
  (spec_C3_per_repo_failure_non_fatal ⟨[("Go", 7)], 7⟩ (.error "exit status 128")
    none (.ok [])).1 "exit status 128" rfl

/-! ## C5: entry errors are skipped; no walk failure ever propagates
(the error-wrapping branch of `analyzeLanguages` is dead code) -/

theorem filepathWalk_scan (ig : Option (List String)) :
    ∀ (entries : List WalkEntry) (st : ScanState),
      filepathWalk (scanWalkFn ig) st entries
        = (entries.foldl (scanStep ig) st, none) := by
  intro entries
  induction entries with
  | nil => intro st; rfl
  | cons e rest ih =>
    intro st
    exact ih (scanStep ig st e)

/-- Counterexample to C5 as stated: the claim's own fatal scenario — the root
path vanishing mid-walk — reaches the callback as an error invocation, which
is logged and swallowed (the callback returns nil); `filepath.Walk` therefore
returns nil and `analyzeLanguages` returns a successful empty result instead
of the claimed non-nil error. -/
theorem spec_C5_counterexample :
    filepathWalk (scanWalkFn none) ⟨[], 0⟩ [WalkEntry.errPath "repo"]
        = (⟨[], 0⟩, none)
    ∧ analyzeLanguagesRun none [WalkEntry.errPath "repo"] = .ok ⟨[], 0⟩ :=
  ⟨rfl, rfl⟩

/-- C5 (amended): errors on individual entries during the walk are non-fatal —
the entry is skipped and the walk continues, leaving the result as if the
entry were absent — and no walk failure is ever propagated to the caller of
`analyzeLanguages`: the callback returns nil on every path, so `filepath.Walk`
(which funnels every failure, fatal top-level ones included, through the
callback) always returns nil, and `analyzeLanguages` always returns the tally
with a nil error — its error-wrapping branch is dead code. -/
theorem spec_C5_amended_no_propagation (ig : Option (List String)) :
    (∀ (es1 es2 : List WalkEntry) (p : String),
        scanRepo ig (es1 ++ WalkEntry.errPath p :: es2) = scanRepo ig (es1 ++ es2))
    ∧ (∀ entries : List WalkEntry,
        (filepathWalk (scanWalkFn ig) ⟨[], 0⟩ entries).2 = none)
    ∧ ∀ entries : List WalkEntry,
        analyzeLanguagesRun ig entries = .ok (scanRepo ig entries) := by
  refine ⟨?_, ?_, ?_⟩
  · intro es1 es2 p
    simp [scanRepo, List.foldl_append, List.foldl_cons, scanStep]
  · intro entries
    rw [filepathWalk_scan ig entries]
  · intro entries
    unfold analyzeLanguagesRun
    rw [filepathWalk_scan ig entries]
    rfl

/-! ## C7: extension classification decides the contribution -/

/-- C7: a non-ignored readable regular file whose lowercased extension is
absent from `extToLang` contributes nothing to the tally or the total; one
whose extension is present has its size added to exactly its language's bucket
(all other buckets unchanged) and to the total. -/
theorem spec_C7_extension_classification (ig : Option (List String)) (st : ScanState)
    (rel : String) (size : Nat) (hig : shouldIgnorePath ig rel = .ok false) :
    (extToLang (lowerExt rel) = none →
        scanStep ig st (.file rel size true true) = st)
    ∧ ∀ lang, extToLang (lowerExt rel) = some lang →
        (scanStep ig st (.file rel size true true)).totalBytes = st.totalBytes + size
        ∧ lookupCount (scanStep ig st (.file rel size true true)).langByteCounts lang
            = lookupCount st.langByteCounts lang + size
        ∧ ∀ l, l ≠ lang →
            lookupCount (scanStep ig st (.file rel size true true)).langByteCounts l
              = lookupCount st.langByteCounts l := by
  constructor
  · intro hnone
    simp [scanStep, hig, hnone]
  · intro lang hlang
    refine ⟨?_, ?_, ?_⟩
    · simp [scanStep, hig, hlang]
    · simp [scanStep, hig, hlang, lookupCount_bump_self]
    · intro l hl
      simp [scanStep, hig, hlang, lookupCount_bump_other st.langByteCounts lang size l hl]

/-- Witness for C7 at a concrete `.go` file. -/
theorem spec_C7_extension_classification_witness :
    (scanStep none ⟨[("Python", 50)], 50⟩ (.file "a.go" 100 true true)).totalBytes
        = 50 + 100
    ∧ lookupCount (scanStep none ⟨[("Python", 50)], 50⟩
          (.file "a.go" 100 true true)).langByteCounts "Go"
        = lookupCount [("Python", 50)] "Go" + 100 :=
  let h := (spec_C7_extension_classification none ⟨[("Python", 50)], 50⟩ "a.go" 100
    (by decide)).2 "Go" (by decide)
  ⟨h.1, h.2.1⟩

/-! ## C6: the ignore matcher contract -/

theorem firstMatch_all_false (ps : List String) (rel : String)
    (h : ∀ p ∈ ps, goMatch p rel = .ok false) : firstMatch ps rel = .ok false := by
  induction ps with
  | nil => rfl
  | cons p rest ih =>
    have hp := h p (List.mem_cons_self p rest)
    simp [firstMatch, hp, ih (fun q hq => h q (List.mem_cons_of_mem p hq))]

theorem firstMatch_first_true (ps1 : List String) (p : String) (ps2 : List String)
    (rel : String) (h1 : ∀ q ∈ ps1, goMatch q rel = .ok false)
    (h2 : goMatch p rel = .ok true) :
    firstMatch (ps1 ++ p :: ps2) rel = .ok true := by
  induction ps1 with
  | nil => simp [firstMatch, h2]
  | cons q rest ih =>
    have hq := h1 q (List.mem_cons_self q rest)
    simp [firstMatch, hq, ih (fun x hx => h1 x (List.mem_cons_of_mem q hx))]

/-- C6: with no ignore file, `shouldIgnorePath` returns `false` for every
path; otherwise the trimmed non-empty non-comment lines are the glob patterns,
the first pattern matching the relative path makes it return `true`, and it
returns `false` when no pattern matches. -/
theorem spec_C6_ignore_matcher (rel : String) :
    shouldIgnorePath none rel = .ok false
    ∧ (∀ lines, (∀ p ∈ gitignorePatterns lines, goMatch p rel = .ok false) →
        shouldIgnorePath (some lines) rel = .ok false)
    ∧ ∀ (lines ps1 : List String) (p : String) (ps2 : List String),
        gitignorePatterns lines = ps1 ++ p :: ps2 →
        (∀ q ∈ ps1, goMatch q rel = .ok false) →
        goMatch p rel = .ok true →
        shouldIgnorePath (some lines) rel = .ok true := by
  refine ⟨rfl, ?_, ?_⟩
  · intro lines h
    exact firstMatch_all_false _ rel h
  · intro lines ps1 p ps2 heq h1 h2
    show firstMatch (gitignorePatterns lines) rel = .ok true
    rw [heq]
    exact firstMatch_first_true ps1 p ps2 rel h1 h2

/-- Witness for C6: a concrete ignore file with a comment, a blank line and
two patterns, whose second kept pattern is the first match. -/
theorem spec_C6_ignore_matcher_witness :
    shouldIgnorePath (some ["# generated", "  ", "*.log", "*.py"]) "debug.log"
      = .ok true :=
  (spec_C6_ignore_matcher "debug.log").2.2 ["# generated", "  ", "*.log", "*.py"]
    [] "*.log" ["*.py"] (by decide) (by simp) (by decide)

/-! ## C8: author counting -/

theorem lookupCount_countFold (lines : List String) (m : List (String × Nat))
    (a : String) (ha : a ≠ "") :
    lookupCount (lines.foldl
        (fun counts author => if author ≠ "" then bump counts author 1 else counts) m) a
      = lookupCount m a + lines.count a := by
  induction lines generalizing m with
  | nil => simp
  | cons l ls ih =>
    rw [List.foldl_cons]
    by_cases hl : l = ""
    · rw [if_neg (by simp [hl]), ih m]
      have hne : ¬ l = a := by rw [hl]; exact fun hh => ha hh.symm
      simp [List.count_cons, hne]
    · rw [if_pos hl, ih (bump m l 1)]
      by_cases hla : l = a
      · subst hla
        rw [lookupCount_bump_self]
        simp [List.count_cons]
        omega
      · rw [lookupCount_bump_other m l 1 a (fun hh => hla hh.symm)]
        simp [List.count_cons, hla]

theorem bump_values_pos (m : List (String × Nat)) (k : String) (v : Nat)
    (hm : ∀ p ∈ m, 0 < p.2) (hv : 0 < v) : ∀ p ∈ bump m k v, 0 < p.2 := by
  intro p hp
  unfold bump at hp
  cases hk : hasKey m k with
  | true =>
    simp only [hk, if_true] at hp
    rcases List.mem_map.mp hp with ⟨q, hq, hpq⟩
    by_cases hq1 : q.1 = k
    · rw [← hpq]
      simp only [hq1, if_true]
      have := hm q hq
      omega
    · rw [← hpq]
      simp only [hq1, if_false]
      exact hm q hq
  | false =>
    simp only [hk, Bool.false_eq_true, if_false, List.mem_append,
      List.mem_singleton] at hp
    rcases hp with hp | hp
    · exact hm p hp
    · rw [hp]
      exact hv

theorem countAuthors_pos (output : String) :
    ∀ p ∈ countAuthors output, 0 < p.2 := by
  unfold countAuthors
  generalize ((splitNL output.data).map (fun l => (⟨l⟩ : String))) = lines
  have hgen : ∀ (m : List (String × Nat)), (∀ p ∈ m, 0 < p.2) →
      ∀ p ∈ lines.foldl (fun counts author =>
          if author ≠ "" then bump counts author 1 else counts) m, 0 < p.2 := by
    induction lines with
    | nil => exact fun m hm => hm
    | cons l ls ih =>
      intro m hm
      rw [List.foldl_cons]
      by_cases hl : l = ""
      · rw [if_neg (by simp [hl])]
        exact ih m hm
      · rw [if_pos hl]
        exact ih _ (bump_values_pos m l 1 hm (by omega))
  exact hgen [] (by simp)

/-- C8: `analyzeCommitsByAuthor` splits the log output into lines, ignores
blank lines and increments the named author's count per non-blank line: each
author's count equals the number of lines naming that author (three "Alice"
and two "Bob" lines give `{Alice: 3, Bob: 2}`), and every count in the result
is positive. -/
theorem spec_C8_author_counting :
    countAuthors "Alice\nBob\nAlice\nBob\nAlice\n" = [("Alice", 3), ("Bob", 2)]
    ∧ (∀ (output author : String), author ≠ "" →
        lookupCount (countAuthors output) author
          = ((splitNL output.data).map (fun l => (⟨l⟩ : String))).count author)
    ∧ ∀ (output : String) (p : String × Nat), p ∈ countAuthors output → 0 < p.2 := by
  refine ⟨rfl, ?_, ?_⟩
  · intro output author ha
    have h := lookupCount_countFold
      ((splitNL output.data).map (fun l => (⟨l⟩ : String))) [] author ha
    simpa [countAuthors, lookupCount] using h
  · exact fun output p hp => countAuthors_pos output p hp

/-- Witness for C8 at concrete log outputs. -/
theorem spec_C8_author_counting_witness :
    lookupCount (countAuthors "Alice\nBob\n") "Alice"
        = ((splitNL ("Alice\nBob\n" : String).data).map (fun l => (⟨l⟩ : String))).count "Alice"
    ∧ 0 < (("Alice", 3) : String × Nat).2 :=
  ⟨spec_C8_author_counting.2.1 "Alice\nBob\n" "Alice" (by decide),
   spec_C8_author_counting.2.2 "Alice\nBob\nAlice\nBob\nAlice\n" ("Alice", 3) (by decide)⟩

/-! ## C4: an ignore-matcher error makes the scanner skip the file
(fails closed, contrary to the claimed fail-open behavior) -/

/-- Counterexample to C4 as stated: for the malformed pattern `[` the matcher
errors on `a.go`, whose extension is recognized — yet the scanner counts
nothing (the claim asserts the file would still be counted, i.e. a tally of
`{Go: 100}` and total `100`). -/
theorem spec_C4_counterexample :
    shouldIgnorePath (some ["["]) "a.go"
        = .error "matching pattern: syntax error in pattern"
    ∧ extToLang (lowerExt "a.go") = some "Go"
    ∧ scanRepo (some ["["]) [.file "a.go" 100 true true] = ⟨[], 0⟩ :=
  ⟨rfl, rfl, rfl⟩

/-- C4 (amended): when the ignore matcher returns an error for a file, the
scanner logs it and skips that file entirely — it contributes to neither the
tally nor the total (fails closed) — and the walk continues with the
remaining entries. -/
theorem spec_C4_amended_fails_closed (ig : Option (List String)) (st : ScanState)
    (rel : String) (size : Nat) (oOk sOk : Bool) (msg : String)
    (h : shouldIgnorePath ig rel = .error msg) :
    scanStep ig st (.file rel size oOk sOk) = st
    ∧ ∀ (es1 es2 : List WalkEntry),
        scanRepo ig (es1 ++ WalkEntry.file rel size oOk sOk :: es2)
          = scanRepo ig (es1 ++ es2) := by
  have hstep : ∀ s : ScanState, scanStep ig s (.file rel size oOk sOk) = s := by
    intro s
    simp [scanStep, h]
  refine ⟨hstep st, ?_⟩
  intro es1 es2
  simp [scanRepo, List.foldl_append, List.foldl_cons, hstep]

/-- Witness for the amended C4 at the malformed pattern `[`. -/
theorem spec_C4_amended_fails_closed_witness :
    scanStep (some ["["]) ⟨[], 0⟩ (.file "a.go" 100 true true) = ⟨[], 0⟩ :=
  (spec_C4_amended_fails_closed (some ["["]) ⟨[], 0⟩ "a.go" 100 true true
    "matching pattern: syntax error in pattern" (by decide)).1

/-! ## C10: a `*` wildcard never matches a path separator -/

theorem matchChunk_default_step (c : Char) (rest s : List Char) (failed : Bool)
    (fuel : Nat) (h1 : c ≠ '[') (h2 : c ≠ '?') (h3 : c ≠ '\\') :
    matchChunk (fuel + 1) (c :: rest) s failed
      = if failed || s.isEmpty then matchChunk fuel rest s true
        else matchChunk fuel rest s.tail (decide (s.headD 'A' ≠ c)) := by
  simp only [matchChunk]
  rw [if_neg h1, if_neg h2, if_neg h3]

/-- On a chunk of plain literal characters, `matchChunk` never errors, and a
successful match means the chunk is consumed verbatim from the front of `s`. -/
theorem matchChunk_plain : ∀ (chunk : List Char),
    (∀ c ∈ chunk, c ≠ '[' ∧ c ≠ '?' ∧ c ≠ '\\') →
    ∀ (s : List Char) (failed : Bool), ∃ o,
      matchChunk (chunk.length + 1) chunk s failed = .ok o
      ∧ ∀ t, o = some t → failed = false ∧ s = chunk ++ t := by
  intro chunk
  induction chunk with
  | nil =>
    intro _ s failed
    cases failed with
    | false => exact ⟨some s, rfl, fun t ht => by cases ht; exact ⟨rfl, by simp⟩⟩
    | true => exact ⟨none, rfl, fun t ht => by cases ht⟩
  | cons c rest ih =>
    intro hplain s failed
    have hc := hplain c (List.mem_cons_self c rest)
    have hrest := fun x hx => hplain x (List.mem_cons_of_mem c hx)
    have hstep := matchChunk_default_step c rest s failed (rest.length + 1)
      hc.1 hc.2.1 hc.2.2
    rw [List.length_cons]
    cases s with
    | nil =>
      simp only [List.isEmpty_nil, Bool.or_true, if_true] at hstep
      rcases ih hrest [] true with ⟨o, ho, hprop⟩
      refine ⟨o, by rw [hstep]; exact ho, fun t ht => ?_⟩
      rcases hprop t ht with ⟨hcontra, _⟩
      cases hcontra
    | cons a s2 =>
      simp only [List.isEmpty_cons, Bool.or_false, List.tail_cons,
        List.headD_cons] at hstep
      cases failed with
      | true =>
        simp only [Bool.true_or, if_true] at hstep
        rcases ih hrest (a :: s2) true with ⟨o, ho, hprop⟩
        refine ⟨o, by rw [hstep]; exact ho, fun t ht => ?_⟩
        rcases hprop t ht with ⟨hcontra, _⟩
        cases hcontra
      | false =>
        simp only [Bool.false_or, Bool.false_eq_true, if_false] at hstep
        by_cases hac : a = c
        · have hdec : decide (a ≠ c) = false := by simp [hac]
          rw [hdec] at hstep
          rcases ih hrest s2 false with ⟨o, ho, hprop⟩
          refine ⟨o, by rw [hstep]; exact ho, fun t ht => ?_⟩
          rcases hprop t ht with ⟨_, hst⟩
          subst hac
          exact ⟨rfl, by simp [hst]⟩
        · have hdec : decide (a ≠ c) = true := by simp [hac]
          rw [hdec] at hstep
          rcases ih hrest s2 true with ⟨o, ho, hprop⟩
          refine ⟨o, by rw [hstep]; exact ho, fun t ht => ?_⟩
          rcases hprop t ht with ⟨hcontra, _⟩
          cases hcontra

/-- The star-search loop over a plain separator-free chunk with an exhausted
remaining pattern succeeds only with an empty leftover and never walks past a
`/`: a success means the whole name is separator-free. -/
theorem starLoop_plain (chunk : List Char)
    (hplain : ∀ c ∈ chunk, c ≠ '[' ∧ c ≠ '?' ∧ c ≠ '\\')
    (hsep : '/' ∉ chunk) :
    ∀ (name t : List Char), starLoop chunk [] name = .ok (some t) →
      t = [] ∧ '/' ∉ name := by
  intro name
  induction name with
  | nil =>
    intro t ht
    simp [starLoop] at ht
  | cons a tailName ih =>
    intro t ht
    by_cases hasep : a = '/'
    · simp [starLoop, hasep] at ht
    · rcases matchChunk_plain chunk hplain tailName false with ⟨o, ho, hprop⟩
      have ho' : matchChunkRun chunk tailName = .ok o := ho
      rw [starLoop, if_neg hasep, ho'] at ht
      cases o with
      | some u =>
        cases u with
        | nil =>
          simp only [List.isEmpty_nil, List.isEmpty_cons, Bool.not_true,
            Bool.and_false, if_false] at ht
          rcases hprop [] rfl with ⟨_, htail⟩
          have ht' : t = [] := by
            simpa using ht.symm
          refine ⟨ht', ?_⟩
          intro hmem
          rcases List.mem_cons.mp hmem with hmem | hmem
          · exact hasep hmem.symm
          · rw [htail] at hmem
            simp at hmem
            exact hsep hmem
        | cons b u2 =>
          simp only [List.isEmpty_nil, List.isEmpty_cons, Bool.not_false,
            Bool.and_true, if_true] at ht
          rcases ih t ht with ⟨ht', htail⟩
          refine ⟨ht', ?_⟩
          intro hmem
          rcases List.mem_cons.mp hmem with hmem | hmem
          · exact hasep hmem.symm
          · exact htail hmem
      | none =>
        rcases ih t ht with ⟨ht', htail⟩
        refine ⟨ht', ?_⟩
        intro hmem
        rcases List.mem_cons.mp hmem with hmem | hmem
        · exact hasep hmem.symm
        · exact htail hmem

/-- For the pattern `*.py`, a successful `goMatch` forces the matched name to
contain no separator (Go's `*` matches only non-separator characters). -/
theorem goMatch_star_py_no_sep (rel : String)
    (h : goMatch "*.py" rel = .ok true) : '/' ∉ rel.data := by
  have hplain : ∀ c ∈ ('.' :: 'p' :: 'y' :: ([] : List Char)),
      c ≠ '[' ∧ c ≠ '?' ∧ c ≠ '\\' := by decide
  have hsep : '/' ∉ ('.' :: 'p' :: 'y' :: ([] : List Char)) := by decide
  rcases matchChunk_plain _ hplain rel.data false with ⟨o, ho, hprop⟩
  have ho' : matchChunkRun ('.' :: 'p' :: 'y' :: []) rel.data = .ok o := ho
  have hfall : (match starFallback true ('.' :: 'p' :: 'y' :: []) [] rel.data with
      | .error e => (.error e : Except String Bool)
      | .ok (some t2) => goMatchAux 4 [] t2
      | .ok none => .ok false) = .ok true → '/' ∉ rel.data := by
    intro hh
    have hsf2 : (match starLoop ('.' :: 'p' :: 'y' :: []) [] rel.data with
        | .error e => (.error e : Except String (Option (List Char)))
        | .ok (some u) => .ok (some u)
        | .ok none => .ok none) = starFallback true ('.' :: 'p' :: 'y' :: []) [] rel.data := rfl
    cases hx : starLoop ('.' :: 'p' :: 'y' :: []) [] rel.data with
    | error e =>
      rw [hx] at hsf2
      rw [← hsf2] at hh
      simp at hh
    | ok u =>
      cases u with
      | none =>
        rw [hx] at hsf2
        rw [← hsf2] at hh
        simp at hh
      | some u2 =>
        exact (starLoop_plain _ hplain hsep rel.data u2 hx).2
  have hm : goMatch "*.py" rel
      = (match matchChunkRun ('.' :: 'p' :: 'y' :: []) rel.data with
        | .error e => (.error e : Except String Bool)
        | .ok (some t) =>
          if t.isEmpty || false then goMatchAux 4 [] t
          else
            match starFallback true ('.' :: 'p' :: 'y' :: []) [] rel.data with
            | .error e => .error e
            | .ok (some t2) => goMatchAux 4 [] t2
            | .ok none => .ok false
        | .ok none =>
          match starFallback true ('.' :: 'p' :: 'y' :: []) [] rel.data with
          | .error e => .error e
          | .ok (some t2) => goMatchAux 4 [] t2
          | .ok none => .ok false) := rfl
  rw [hm, ho'] at h
  cases o with
  | some t =>
    rcases hprop t rfl with ⟨_, hrel⟩
    cases t with
    | nil =>
      rw [hrel]
      decide
    | cons b tb =>
      simp only [List.isEmpty_cons, Bool.false_or, Bool.or_false,
        Bool.false_eq_true, if_false] at h
      exact hfall h
  | none => exact hfall h

/-- C10: with the ignore pattern `*.py`, `shouldIgnorePath` returns `true`
only for names without a path separator (a `*` never matches `/`): a `.py`
file at the repository root is ignored, while the same file name inside a
subdirectory is not ignored and is still counted by the scanner. -/
theorem spec_C10_wildcard_no_separator :
    (∀ rel : String, shouldIgnorePath (some ["*.py"]) rel = .ok true → '/' ∉ rel.data)
    ∧ shouldIgnorePath (some ["*.py"]) "a.py" = .ok true
    ∧ shouldIgnorePath (some ["*.py"]) "sub/a.py" = .ok false
    ∧ scanRepo (some ["*.py"]) [.file "sub/a.py" 50 true true]
        = ⟨[("Python", 50)], 50⟩
    ∧ scanRepo (some ["*.py"]) [.file "a.py" 50 true true] = ⟨[], 0⟩ := by
  refine ⟨?_, rfl, rfl, rfl, rfl⟩
  intro rel h
  have hfm : firstMatch ["*.py"] rel = .ok true := h
  have hgm : goMatch "*.py" rel = .ok true := by
    cases hx : goMatch "*.py" rel with
    | error e =>
      rw [show firstMatch ["*.py"] rel = .error ("matching pattern: " ++ e) from by
        simp [firstMatch, hx]] at hfm
      simp at hfm
    | ok b =>
      cases b with
      | false =>
        rw [show firstMatch ["*.py"] rel = firstMatch [] rel from by
          simp [firstMatch, hx]] at hfm
        simp [firstMatch] at hfm
      | true => rfl
  exact goMatch_star_py_no_sep rel hgm

/-- Witness for C10: a root-level `.py` file is ignored, and the theorem's
general implication applied to it confirms its name has no separator. -/
theorem spec_C10_wildcard_no_separator_witness :
    shouldIgnorePath (some ["*.py"]) "a.py" = .ok true
    ∧ '/' ∉ ("a.py" : String).data :=
  ⟨by decide, spec_C10_wildcard_no_separator.1 "a.py" (by decide)⟩

/-! ## C9: chart layout -/

theorem insertDesc_perm (p : String × Nat) (l : List (String × Nat)) :
    List.Perm (insertDesc p l) (p :: l) := by
  induction l with
  | nil => exact List.Perm.refl _
  | cons q rest ih =>
    unfold insertDesc
    by_cases h : q.2 < p.2
    · rw [if_pos h]
    · rw [if_neg h]
      exact (ih.cons q).trans (List.Perm.swap p q rest)

theorem sortLangs_perm (l : List (String × Nat)) : List.Perm (sortLangs l) l := by
  induction l with
  | nil => exact List.Perm.refl _
  | cons p rest ih => exact (insertDesc_perm p (sortLangs rest)).trans (ih.cons p)

theorem insertDesc_sorted (p : String × Nat) (l : List (String × Nat))
    (h : l.Pairwise (fun a b => b.2 ≤ a.2)) :
    (insertDesc p l).Pairwise (fun a b => b.2 ≤ a.2) := by
  induction l with
  | nil => simp [insertDesc]
  | cons q rest ih =>
    rcases List.pairwise_cons.mp h with ⟨hq, hrest⟩
    unfold insertDesc
    by_cases hlt : q.2 < p.2
    · rw [if_pos hlt]
      refine List.pairwise_cons.mpr ⟨?_, h⟩
      intro x hx
      rcases List.mem_cons.mp hx with hx | hx
      · rw [hx]
        omega
      · have := hq x hx
        omega
    · rw [if_neg hlt]
      refine List.pairwise_cons.mpr ⟨?_, ih hrest⟩
      intro x hx
      have hx' : x ∈ p :: rest := (insertDesc_perm p rest).mem_iff.mp hx
      rcases List.mem_cons.mp hx' with hx' | hx'
      · rw [hx']
        omega
      · exact hq x hx'

theorem sortLangs_sorted (l : List (String × Nat)) :
    (sortLangs l).Pairwise (fun a b => b.2 ≤ a.2) := by
  induction l with
  | nil => simp [sortLangs]
  | cons p rest ih => exact insertDesc_sorted p (sortLangs rest) ih

theorem segmentsFrom_length (total : Nat) (x0 : ℚ) (l : List (String × Nat)) :
    (segmentsFrom total x0 l).length = l.length := by
  induction l generalizing x0 with
  | nil => rfl
  | cons p rest ih => simp [segmentsFrom, ih]

theorem segmentsFrom_langs (total : Nat) (x0 : ℚ) (l : List (String × Nat)) :
    (segmentsFrom total x0 l).map Segment.lang = l.map (fun p => p.1) := by
  induction l generalizing x0 with
  | nil => rfl
  | cons p rest ih => simp [segmentsFrom, ih]

theorem segmentsFrom_widths (total : Nat) (x0 : ℚ) (l : List (String × Nat)) :
    (segmentsFrom total x0 l).map Segment.width
      = l.map (fun p => (500 : ℚ) * ((p.2 : ℚ) / (total : ℚ))) := by
  induction l generalizing x0 with
  | nil => rfl
  | cons p rest ih => simp [segmentsFrom, ih]

theorem segmentsFrom_chain (total : Nat) :
    ∀ (l : List (String × Nat)) (x0 : ℚ),
      List.Chain' (fun a b => b.x = a.x + a.width) (segmentsFrom total x0 l)
  | [], _ => List.chain'_nil
  | [p], _ => by simp [segmentsFrom]
  | p :: q :: rest, x0 => by
    have h2 := segmentsFrom_chain total (q :: rest)
      (x0 + 500 * ((p.2 : ℚ) / (total : ℚ)))
    simp only [segmentsFrom] at h2 ⊢
    exact List.chain'_cons.mpr ⟨rfl, h2⟩

theorem segmentsFrom_head (total : Nat) (x0 : ℚ) (p : String × Nat)
    (rest : List (String × Nat)) :
    (segmentsFrom total x0 (p :: rest)).head?.map Segment.x = some x0 := rfl

theorem sum_proportional (total : Nat) (l : List (String × Nat)) :
    (l.map (fun p => (500 : ℚ) * ((p.2 : ℚ) / (total : ℚ)))).sum
      = (500 : ℚ) / (total : ℚ) * (((l.map (fun p => p.2)).sum : Nat) : ℚ) := by
  induction l with
  | nil => simp
  | cons p rest ih =>
    simp only [List.map_cons, List.sum_cons, ih]
    push_cast
    ring

/-- C9: when the total is positive (and equal to the tally's sum, as at the
call site), the renderer emits one segment per language, ordered by
non-increasing byte count (ties resolved by the deterministic sort), each of
width `(byteCount / totalBytes) * 500`, laid out contiguously from the margin
`x = 50` with zero gaps, and the widths sum to the chart width `500` exactly
(over `ℚ`, the idealization of the `float64` arithmetic). -/
theorem spec_C9_chart_layout (langs : List (String × Nat)) (total : Nat)
    (hpos : 0 < total) (hsum : total = (langs.map (fun p => p.2)).sum) :
    (generateProgressBarSVG langs total).length = langs.length
    ∧ List.Perm (sortLangs langs) langs
    ∧ (generateProgressBarSVG langs total).map Segment.lang
        = (sortLangs langs).map (fun p => p.1)
    ∧ (sortLangs langs).Pairwise (fun a b => b.2 ≤ a.2)
    ∧ (generateProgressBarSVG langs total).map Segment.width
        = (sortLangs langs).map (fun p => (500 : ℚ) * ((p.2 : ℚ) / (total : ℚ)))
    ∧ (generateProgressBarSVG langs total).head?.map Segment.x = some 50
    ∧ List.Chain' (fun a b => b.x = a.x + a.width) (generateProgressBarSVG langs total)
    ∧ ((generateProgressBarSVG langs total).map Segment.width).sum = 500 := by
  have hperm := sortLangs_perm langs
  refine ⟨?_, hperm, segmentsFrom_langs total 50 (sortLangs langs),
    sortLangs_sorted langs, segmentsFrom_widths total 50 (sortLangs langs), ?_,
    segmentsFrom_chain total _ 50, ?_⟩
  · rw [generateProgressBarSVG, segmentsFrom_length]
    exact hperm.length_eq
  · cases hsl : sortLangs langs with
    | nil =>
      exfalso
      have hnil : langs = [] := by
        have hp := hperm
        rw [hsl] at hp
        exact hp.symm.eq_nil
      rw [hnil] at hsum
      simp at hsum
      omega
    | cons p rest =>
      rw [generateProgressBarSVG, hsl]
      exact segmentsFrom_head total 50 p rest
  · rw [generateProgressBarSVG, segmentsFrom_widths]
    have hs : ((sortLangs langs).map
          (fun p => (500 : ℚ) * ((p.2 : ℚ) / (total : ℚ)))).sum
        = (langs.map (fun p => (500 : ℚ) * ((p.2 : ℚ) / (total : ℚ)))).sum :=
      (hperm.map _).sum_eq
    rw [hs, sum_proportional, ← hsum]
    have hne : (total : ℚ) ≠ 0 :=
      Nat.cast_ne_zero.mpr (Nat.pos_iff_ne_zero.mp hpos)
    field_simp

/-- Witness for C9 at a concrete two-language tally. -/
theorem spec_C9_chart_layout_witness :
    (generateProgressBarSVG [("Go", 100), ("Python", 50)] 150).length
        = ([("Go", 100), ("Python", 50)] : List (String × Nat)).length
    ∧ ((generateProgressBarSVG [("Go", 100), ("Python", 50)] 150).map
          Segment.width).sum = 500 :=
  have h := spec_C9_chart_layout [("Go", 100), ("Python", 50)] 150
    (by decide) (by decide)
  ⟨h.1, h.2.2.2.2.2.2.2⟩

end GOrg
